import Mathlib

/-!
# realix: unique random numbers over websocket sessions

A shallow embedding of `repo/repo.go` and `server/server.go`.

* A Go `sync.Map` is a finite map; it is embedded as a list of entries on which
  `Load`, `LoadOrStore`, `Swap` and `CompareAndDelete` act as the documented
  atomic primitives.
* A `*big.Int` is an `Option Int` (`none` is the nil pointer), a
  `*websocket.Conn` is an `Option Conn` where `Conn` names a connection object.
* `rand.Int(rand.Reader, max)` is an input of the program: every draw is an
  outcome `Option Int`, `some v` for a value, `none` for `(nil, err)`.
* The `for` loop of `getRndNumber` consumes a list of draw outcomes; it yields
  `none` when the draws handed to it are used up before the loop is left.
-/

namespace Realix

/-! ## sync.Map -/

/-- Entries of a Go `sync.Map`, latest binding first. -/
abbrev SyncMap (K V : Type) := List (K × V)

namespace SyncMap

variable {K V : Type} [DecidableEq K] [DecidableEq V]

/-- The method `Load`: the value stored for a key, if any. -/
def Load : SyncMap K V → K → Option V
  | [], _ => none
  | (k', v) :: m, k => if k' = k then some v else Load m k

/-- The method `Delete`: drop the entry of a key. -/
def Delete (m : SyncMap K V) (k : K) : SyncMap K V :=
  m.filter (fun e => decide (e.1 ≠ k))

/-- The method `LoadOrStore`: the existing value and `true` when the key is present,
otherwise the given value is stored and returned with `false`. -/
def LoadOrStore (m : SyncMap K V) (k : K) (v : V) : SyncMap K V × V × Bool :=
  match Load m k with
  | some a => (m, a, true)
  | none => ((k, v) :: m, v, false)

/-- The method `Swap`: store the value for the key, return the previous value if any;
the flag reports whether the key was present. -/
def Swap (m : SyncMap K V) (k : K) (v : V) : SyncMap K V × Option V × Bool :=
  match Load m k with
  | some a => ((k, v) :: Delete m k, some a, true)
  | none => ((k, v) :: Delete m k, none, false)

/-- The method `CompareAndDelete`: delete the entry of the key if its value equals `old`;
`false` when the key has no value or another one. -/
def CompareAndDelete (m : SyncMap K V) (k : K) (old : V) : SyncMap K V × Bool :=
  match Load m k with
  | some a => if a = old then (Delete m k, true) else (m, false)
  | none => (m, false)

/-- How many entries the map holds for a key. -/
def entryCount (m : SyncMap K V) (k : K) : Nat :=
  (m.filter (fun e => decide (e.1 = k))).length

end SyncMap

/-! ## math/big -/

/-- The method `(*big.Int).String`: the text `<nil>` for the nil pointer, otherwise the
decimal digits, preceded by a minus sign for a negative value. -/
def bigIntString : Option Int → String
  | none => "<nil>"
  | some (Int.ofNat n) => Nat.repr n
  | some (Int.negSucc n) => "-" ++ Nat.repr (n + 1)

/-- The method `(*big.Int).MulRange(a, b)`: the product of all integers in `[a, b]`;
`1` for an empty range, `0` when the range contains zero. -/
def MulRange (a b : Int) : Int :=
  if a > b then 1
  else if a ≤ 0 ∧ b ≥ 0 then 0
  else (List.range (b - a + 1).toNat).foldl (fun (acc : Int) (k : Nat) => acc * (a + (k : Int))) 1

/-- The bound handed to `rand.Int` in `getRndNumber`: `big.NewInt(0).MulRange(1, 1000)`. -/
def drawBound : Int := MulRange 1 1000

/-- The documented result of `rand.Int(rand.Reader, max)`: a value in `[0, max)`, or
`(nil, err)`. -/
def validDraw (max : Int) : Option Int → Prop
  | none => True
  | some v => 0 ≤ v ∧ v < max

instance (max : Int) (d : Option Int) : Decidable (validDraw max d) := by
  cases d <;> unfold validDraw <;> infer_instance

/-! ## package repo -/

/-- The struct `Repo`. -/
structure Repo where
  ints : SyncMap String Unit
deriving DecidableEq

/-- The constructor `repo.New`. -/
def Repo.New : Repo := { ints := [] }

/-- The method `Repo.CheckOrStore`: `LoadOrStore(i.String(), struct{}{})`, returning the
`loaded` flag. -/
def Repo.CheckOrStore (r : Repo) (i : Option Int) : Repo × Bool :=
  let res := SyncMap.LoadOrStore r.ints (bigIntString i) ()
  ({ ints := res.1 }, res.2.2)

/-- The keys stored in `Repo.ints`. -/
def Repo.hasKey (r : Repo) (k : String) : Prop :=
  SyncMap.Load r.ints k = some ()

instance (r : Repo) (k : String) : Decidable (r.hasKey k) := by
  unfold Repo.hasKey; infer_instance

/-- Successive `CheckOrStore` calls on one `Repo`, oldest argument first. -/
def Repo.checkOrStoreAll (r : Repo) : List (Option Int) → Repo
  | [] => r
  | i :: rest => Repo.checkOrStoreAll (r.CheckOrStore i).1 rest

/-! ## package server -/

/-- Identity of a `websocket.Conn` object; a `*websocket.Conn` is an `Option Conn`. -/
abbrev Conn := Nat

/-- The struct `Server`. -/
structure Server where
  repo : Repo
  conns : SyncMap String (Option Conn)
deriving DecidableEq

/-- The constructor `server.New`. -/
def Server.New (repo : Repo) : Server := { repo := repo, conns := [] }

/-- The method `Server.getRndNumber` run on the outcomes of its successive `rand.Int`
calls. Every iteration takes one draw `i` (nil when the draw failed, which is only
logged) and calls `CheckOrStore(i)`; the loop is left when that returns `false`.
The result is the returned pointer, the server afterwards and the draws not consumed;
`none` when the loop is still running after the last draw given. -/
def Server.getRndNumber (s : Server) : List (Option Int) → Option (Option Int × Server × List (Option Int))
  | [] => none
  | i :: rest =>
    let res := s.repo.CheckOrStore i
    if !res.2 then some (i, { s with repo := res.1 }, rest)
    else Server.getRndNumber { s with repo := res.1 } rest

/-- A number of successive `getRndNumber` calls on one server, as the read loop of a session
makes them; the returned values are listed first call first. -/
def Server.getRndNumbers (s : Server) : Nat → List (Option Int) → Option (List (Option Int) × Server × List (Option Int))
  | 0, draws => some ([], s, draws)
  | n + 1, draws =>
    match s.getRndNumber draws with
    | none => none
    | some (v, s1, rest) =>
      match Server.getRndNumbers s1 n rest with
      | none => none
      | some (vs, s2, rest2) => some (v :: vs, s2, rest2)

/-- The first `k` draws of an unending run of successful draws. -/
def firstDraws (d : Nat → Int) (k : Nat) : List (Option Int) :=
  (List.range k).map (fun n => some (d n))

/-- Lines 101-118 of `serveWS`: `conns.Swap(host, conn)`, then `Close` on the previous
value when it was loaded and is a non-nil connection. The result is the server, the
value returned by `Swap` and the connections closed. -/
def Server.serveWSAccept (s : Server) (host : String) (conn : Conn) : Server × Option (Option Conn) × List Conn :=
  let res := SyncMap.Swap s.conns host (some conn)
  let closed : List Conn :=
    if res.2.2 then
      match res.2.1 with
      | some (some connToClose) => [connToClose]
      | _ => []
    else []
  ({ s with conns := res.1 }, res.2.1, closed)

/-- Lines 122-132 of `serveWS`, the deferred teardown of a session:
`conns.CompareAndDelete(host, conn)`, then `conn.Close()`. The result is the server,
the flag of `CompareAndDelete` and the connections closed. -/
def Server.serveWSTeardown (s : Server) (host : String) (conn : Conn) : Server × Bool × List Conn :=
  let res := SyncMap.CompareAndDelete s.conns host (some conn)
  ({ s with conns := res.1 }, res.2, [conn])

/-- The teardown step repeated `n` times with the same handle; the flags are listed first
call first. -/
def Server.serveWSTeardownRepeat (s : Server) (host : String) (conn : Conn) : Nat → Server × List Bool
  | 0 => (s, [])
  | n + 1 =>
    let res := s.serveWSTeardown host conn
    let more := Server.serveWSTeardownRepeat res.1 host conn n
    (more.1, res.2.1 :: more.2)

/-! ## The registry as a state machine -/

/-- What happens to the registry: a connection from a host is accepted (lines 101-118 of
`serveWS`), or the session of a connection ends (the deferred function, lines 122-132). -/
inductive Event where
  | accept (host : String) (conn : Conn)
  | terminate (host : String) (conn : Conn)
deriving DecidableEq

/-- The server together with the record of what happened: the accepted connections with
their hosts, latest first, the connections whose session has ended, and the connections the
server has called `Close` on. -/
structure World where
  srv : Server
  accepted : SyncMap String Conn
  terminated : List Conn
  closed : List Conn
deriving DecidableEq

/-- The server at start, `server.New(repo.New())`, nothing accepted yet. -/
def World.init : World :=
  { srv := Server.New Repo.New, accepted := [], terminated := [], closed := [] }

/-- One event. `Upgrade` hands out a new connection object on every accept, so an accept
with a handle that was accepted before does not occur, and neither does the end of a session
that was never accepted: such an event leaves the world as it is. -/
def World.step (w : World) : Event → World
  | Event.accept host conn =>
    if conn ∈ w.accepted.map Prod.snd then w
    else
      let res := w.srv.serveWSAccept host conn
      { srv := res.1, accepted := (host, conn) :: w.accepted, terminated := w.terminated,
        closed := res.2.2 ++ w.closed }
  | Event.terminate host conn =>
    if (host, conn) ∈ w.accepted then
      let res := w.srv.serveWSTeardown host conn
      { srv := res.1, accepted := w.accepted, terminated := conn :: w.terminated,
        closed := res.2.2 ++ w.closed }
    else w

/-- A sequence of events, first event first. -/
def World.run (w : World) : List Event → World
  | [] => w
  | e :: es => World.run (w.step e) es

/-- The invariant of the registry, with what its proof carries along: every accepted handle
was accepted once, and only accepted connections have ended or been closed. -/
structure World.Inv (w : World) : Prop where
  single : ∀ h, SyncMap.entryCount w.srv.conns h ≤ 1
  entry : ∀ h p, SyncMap.Load w.srv.conns h = some p →
    ∃ c, p = some c ∧ SyncMap.Load w.accepted h = some c ∧ c ∉ w.terminated ∧ c ∉ w.closed
  once : (w.accepted.map Prod.snd).Nodup
  ended : ∀ c ∈ w.terminated, c ∈ w.accepted.map Prod.snd
  shut : ∀ c ∈ w.closed, c ∈ w.accepted.map Prod.snd

/-! ## Sessions calling getRndNumber concurrently -/

/-- Where a session stands in `getRndNumber`: outside a call, at the head of the `for` loop
(before `rand.Int`), or holding the drawn pointer `i` before `CheckOrStore(i)`. -/
inductive Pc where
  | idle
  | loopHead
  | drawn (i : Option Int)
deriving DecidableEq

/-- One atomic step of one session `t`: it enters `getRndNumber`, its `rand.Int` call
returns an outcome, or it runs `CheckOrStore` on the shared Repo and branches on the flag. -/
inductive Action where
  | call (t : Nat)
  | draw (t : Nat) (outcome : Option Int)
  | check (t : Nat)
deriving DecidableEq

/-- The shared server, the place of every session, and the values the calls have returned
so far with the session that got them, latest first. -/
structure Shared where
  srv : Server
  pc : Nat → Pc
  returned : List (Nat × Option Int)

/-- All sessions outside a call on the server `s`. -/
def Shared.init (s : Server) : Shared :=
  { srv := s, pc := fun _ => Pc.idle, returned := [] }

/-- One step of the interleaving; a step that the session cannot take where it stands leaves
the state as it is. -/
def Shared.step (w : Shared) : Action → Shared
  | Action.call t =>
    match w.pc t with
    | Pc.idle => { w with pc := Function.update w.pc t Pc.loopHead }
    | _ => w
  | Action.draw t outcome =>
    match w.pc t with
    | Pc.loopHead => { w with pc := Function.update w.pc t (Pc.drawn outcome) }
    | _ => w
  | Action.check t =>
    match w.pc t with
    | Pc.drawn i =>
      let res := w.srv.repo.CheckOrStore i
      if !res.2 then
        { srv := { w.srv with repo := res.1 }, pc := Function.update w.pc t Pc.idle,
          returned := (t, i) :: w.returned }
      else
        { srv := { w.srv with repo := res.1 }, pc := Function.update w.pc t Pc.loopHead,
          returned := w.returned }
    | _ => w

/-- An interleaving of the sessions' steps, first step first. -/
def Shared.run (w : Shared) : List Action → Shared
  | [] => w
  | a :: as => Shared.run (w.step a) as

/-- The steps of one session that is alone in a call: a draw and a check per outcome. -/
def soloSteps (t : Nat) : List (Option Int) → List Action
  | [] => []
  | d :: ds => Action.draw t d :: Action.check t :: soloSteps t ds

/-- Every returned value has its key stored, and no value was returned twice. -/
structure Shared.Inv (w : Shared) : Prop where
  stored : ∀ v ∈ w.returned.map Prod.snd, w.srv.repo.hasKey (bigIntString v)
  distinct : (w.returned.map Prod.snd).Nodup

/-! ## Definitions used by the proofs -/

/-- The value of a decimal digit character. -/
def digitVal (c : Char) : Nat := c.toNat - 48

/-- The number spelled by a list of decimal digit characters. -/
def decodeDigits (acc : Nat) (cs : List Char) : Nat :=
  cs.foldl (fun a c => a * 10 + digitVal c) acc

/-- The server after the key of the pointer `v` was stored by `CheckOrStore`. -/
def Server.withKey (s : Server) (v : Option Int) : Server :=
  { s with repo := { ints := (bigIntString v, ()) :: s.repo.ints } }

/-! ## Facts on sync.Map -/

namespace SyncMap

variable {K V : Type} [DecidableEq K]

theorem Load_cons (m : SyncMap K V) (k k' : K) (v : V) :
    Load ((k', v) :: m) k = if k' = k then some v else Load m k := rfl

theorem Load_Delete (m : SyncMap K V) (k k' : K) :
    Load (Delete m k) k' = if k' = k then none else Load m k' := by
  induction m with
  | nil => simp [Delete, Load]
  | cons e m ih =>
    obtain ⟨a, b⟩ := e
    unfold Delete at ih ⊢
    by_cases h1 : a = k
    · subst h1
      by_cases h2 : k' = a
      · subst h2; simpa [List.filter_cons] using ih
      · have h3 : ¬ a = k' := fun h => h2 h.symm
        simpa [List.filter_cons, Load_cons, h3] using ih
    · by_cases h2 : a = k'
      · subst h2; simp [List.filter_cons, h1, Load_cons]
      · simpa [List.filter_cons, h1, Load_cons, h2] using ih

theorem entryCount_Delete (m : SyncMap K V) (k k' : K) :
    entryCount (Delete m k) k' = if k' = k then 0 else entryCount m k' := by
  induction m with
  | nil => simp [Delete, entryCount]
  | cons e m ih =>
    obtain ⟨a, b⟩ := e
    unfold Delete entryCount at ih ⊢
    by_cases h1 : a = k
    · subst h1
      by_cases h2 : k' = a
      · subst h2; simp [List.filter_cons]
      · have h3 : ¬ a = k' := fun h => h2 h.symm
        simpa [List.filter_cons, h3, h2] using ih
    · by_cases h2 : a = k'
      · subst h2
        have h3 : ¬ a = k := h1
        simp [List.filter_cons, h1] at ih ⊢
        simpa [h3] using ih
      · simpa [List.filter_cons, h1, h2] using ih

theorem entryCount_cons (m : SyncMap K V) (k k' : K) (v : V) :
    entryCount ((k', v) :: m) k = (if k' = k then 1 else 0) + entryCount m k := by
  unfold entryCount
  by_cases h : k' = k <;> simp [List.filter_cons, h, Nat.add_comm]

theorem entryCount_eq_zero_of_Load (m : SyncMap K V) (k : K) (h : Load m k = none) :
    entryCount m k = 0 := by
  induction m with
  | nil => rfl
  | cons e m ih =>
    obtain ⟨a, b⟩ := e
    rw [Load_cons] at h
    by_cases h1 : a = k
    · simp [h1] at h
    · simp [h1] at h
      rw [entryCount_cons, ih h]; simp [h1]

end SyncMap

/-! ## Facts on the decimal text of an integer -/

theorem digitVal_digitChar (k : Nat) (h : k < 10) : digitVal (Nat.digitChar k) = k := by
  interval_cases k <;> rfl

theorem digitChar_isDigit (k : Nat) (h : k < 10) : (Nat.digitChar k).isDigit = true := by
  interval_cases k <;> rfl

theorem decodeDigits_toDigitsCore (fuel : Nat) :
    ∀ (n : Nat) (ds : List Char), n < fuel →
      decodeDigits 0 (Nat.toDigitsCore 10 fuel n ds) = decodeDigits n ds := by
  induction fuel with
  | zero => intro n ds h; omega
  | succ fuel ih =>
    intro n ds h
    have hd : digitVal (Nat.digitChar (n % 10)) = n % 10 :=
      digitVal_digitChar _ (Nat.mod_lt _ (by decide))
    unfold Nat.toDigitsCore
    by_cases h0 : n / 10 = 0
    · simp only [h0, if_true]
      have hn : n % 10 = n := by omega
      rw [hn] at hd
      simp [decodeDigits, List.foldl_cons, hn, hd]
    · simp only [h0, if_false]
      rw [ih (n / 10) _ (by omega)]
      simp only [decodeDigits, List.foldl_cons, hd]
      congr 1
      omega

theorem isDigit_toDigitsCore (fuel : Nat) :
    ∀ (n : Nat) (ds : List Char), (∀ c ∈ ds, c.isDigit = true) →
      ∀ c ∈ Nat.toDigitsCore 10 fuel n ds, c.isDigit = true := by
  induction fuel with
  | zero => intro n ds h; simpa [Nat.toDigitsCore] using h
  | succ fuel ih =>
    intro n ds h
    have hd : (Nat.digitChar (n % 10)).isDigit = true :=
      digitChar_isDigit _ (Nat.mod_lt _ (by decide))
    have hcons : ∀ c ∈ Nat.digitChar (n % 10) :: ds, c.isDigit = true := by
      intro c hc
      rcases List.mem_cons.mp hc with rfl | hc
      · exact hd
      · exact h c hc
    unfold Nat.toDigitsCore
    by_cases h0 : n / 10 = 0
    · simpa only [h0, if_true] using hcons
    · simpa only [h0, if_false] using ih (n / 10) _ hcons

theorem repr_data_isDigit (n : Nat) : ∀ c ∈ (Nat.repr n).data, c.isDigit = true := by
  simpa [Nat.repr, Nat.toDigits, List.asString] using isDigit_toDigitsCore (n + 1) n [] (by simp)

theorem decode_repr (n : Nat) : decodeDigits 0 (Nat.repr n).data = n := by
  have := decodeDigits_toDigitsCore (n + 1) n [] (by omega)
  simpa [Nat.repr, Nat.toDigits, List.asString, decodeDigits] using this

theorem repr_injective (n m : Nat) (h : Nat.repr n = Nat.repr m) : n = m := by
  rw [← decode_repr n, ← decode_repr m, h]

theorem repr_ne_minus (n m : Nat) : Nat.repr n ≠ "-" ++ Nat.repr m := by
  intro h
  have h1 : ('-' : Char) ∈ (Nat.repr n).data := by
    rw [h]; simp [String.data_append]
  have := repr_data_isDigit n _ h1
  exact absurd this (by decide)

theorem minus_repr_injective (n m : Nat) (h : "-" ++ Nat.repr n = "-" ++ Nat.repr m) : n = m := by
  apply repr_injective
  have h1 := congrArg String.data h
  simp only [String.data_append, List.append_cancel_left_eq] at h1
  exact String.ext h1

/-- Two non-nil integers have the same key exactly when they are equal. -/
theorem bigIntString_inj (i j : Int) :
    bigIntString (some i) = bigIntString (some j) ↔ i = j := by
  constructor
  · intro h
    cases i with
    | ofNat n =>
      cases j with
      | ofNat m => simp only [bigIntString] at h; rw [repr_injective n m h]
      | negSucc m => simp only [bigIntString] at h; exact absurd h (repr_ne_minus _ _)
    | negSucc n =>
      cases j with
      | ofNat m => simp only [bigIntString] at h; exact absurd h.symm (repr_ne_minus _ _)
      | negSucc m =>
        simp only [bigIntString] at h
        have := minus_repr_injective _ _ h
        have : n = m := by omega
        rw [this]
  · intro h; rw [h]

/-- The key of the nil pointer is the key of no integer. -/
theorem bigIntString_ne_nil (i : Int) : bigIntString (some i) ≠ bigIntString none := by
  intro h
  have h1 : ('<' : Char) ∈ (bigIntString (some i)).data := by
    rw [h]; decide
  cases i with
  | ofNat n =>
    simp only [bigIntString] at h1
    exact absurd (repr_data_isDigit n _ h1) (by decide)
  | negSucc n =>
    simp only [bigIntString, String.data_append, List.mem_append] at h1
    rcases h1 with h1 | h1
    · exact absurd h1 (by decide)
    · exact absurd (repr_data_isDigit _ _ h1) (by decide)

/-- The key is injective on pointers. -/
theorem bigIntString_injective (a b : Option Int) (h : bigIntString a = bigIntString b) : a = b := by
  cases a with
  | none =>
    cases b with
    | none => rfl
    | some j => exact absurd h.symm (bigIntString_ne_nil j)
  | some i =>
    cases b with
    | none => exact absurd h (bigIntString_ne_nil i)
    | some j => rw [(bigIntString_inj i j).mp h]

/-! ## Facts on Repo.CheckOrStore and Server.getRndNumber -/

theorem Load_unit_ne_none (m : SyncMap String Unit) (k : String) :
    SyncMap.Load m k ≠ none ↔ SyncMap.Load m k = some () := by
  cases h : SyncMap.Load m k with
  | none => simp
  | some u => simp

theorem CheckOrStore_loaded (r : Repo) (i : Option Int) (h : r.hasKey (bigIntString i)) :
    r.CheckOrStore i = (r, true) := by
  unfold Repo.hasKey at h
  simp [Repo.CheckOrStore, SyncMap.LoadOrStore, h]

theorem CheckOrStore_stored (r : Repo) (i : Option Int) (h : ¬ r.hasKey (bigIntString i)) :
    r.CheckOrStore i = ({ ints := (bigIntString i, ()) :: r.ints }, false) := by
  unfold Repo.hasKey at h
  have h1 : SyncMap.Load r.ints (bigIntString i) = none := by
    by_contra hc
    exact h ((Load_unit_ne_none _ _).mp hc)
  simp [Repo.CheckOrStore, SyncMap.LoadOrStore, h1]

theorem CheckOrStore_flag (r : Repo) (i : Option Int) :
    (r.CheckOrStore i).2 = true ↔ r.hasKey (bigIntString i) := by
  by_cases h : r.hasKey (bigIntString i)
  · simp [CheckOrStore_loaded r i h, h]
  · simp [CheckOrStore_stored r i h, h]

theorem hasKey_cons (ints : SyncMap String Unit) (k k' : String) :
    Repo.hasKey { ints := (k', ()) :: ints } k ↔ (k' = k ∨ Repo.hasKey { ints := ints } k) := by
  unfold Repo.hasKey
  rw [SyncMap.Load_cons]
  by_cases h : k' = k <;> simp [h]

theorem hasKey_CheckOrStore (r : Repo) (i : Option Int) (k : String) :
    (r.CheckOrStore i).1.hasKey k ↔ (r.hasKey k ∨ k = bigIntString i) := by
  by_cases h : r.hasKey (bigIntString i)
  · rw [CheckOrStore_loaded r i h]
    constructor
    · exact fun hk => Or.inl hk
    · rintro (hk | rfl)
      · exact hk
      · exact h
  · rw [CheckOrStore_stored r i h]
    simp only [hasKey_cons]
    constructor
    · rintro (hk | hk)
      · exact Or.inr hk.symm
      · exact Or.inl hk
    · rintro (hk | hk)
      · exact Or.inr hk
      · exact Or.inl hk.symm

theorem hasKey_checkOrStoreAll (hist : List (Option Int)) :
    ∀ (r : Repo) (k : String),
      (r.checkOrStoreAll hist).hasKey k ↔ (r.hasKey k ∨ ∃ a ∈ hist, bigIntString a = k) := by
  induction hist with
  | nil => intro r k; simp [Repo.checkOrStoreAll]
  | cons a hist ih =>
    intro r k
    simp only [Repo.checkOrStoreAll, ih, hasKey_CheckOrStore, List.mem_cons]
    constructor
    · rintro ((h | h) | ⟨b, hb, h⟩)
      · exact Or.inl h
      · exact Or.inr ⟨a, Or.inl rfl, h.symm⟩
      · exact Or.inr ⟨b, Or.inr hb, h⟩
    · rintro (h | ⟨b, hb | hb, h⟩)
      · exact Or.inl (Or.inl h)
      · subst hb; exact Or.inl (Or.inr h.symm)
      · exact Or.inr ⟨b, hb, h⟩

theorem not_hasKey_New (k : String) : ¬ Repo.New.hasKey k := by
  simp [Repo.hasKey, Repo.New, SyncMap.Load]

theorem getRndNumber_skip (s : Server) (i : Option Int) (rest : List (Option Int))
    (h : s.repo.hasKey (bigIntString i)) :
    s.getRndNumber (i :: rest) = s.getRndNumber rest := by
  cases s with
  | mk repo conns =>
    simp only at h
    rw [Server.getRndNumber]
    simp [CheckOrStore_loaded repo i h]

theorem getRndNumber_take (s : Server) (i : Option Int) (rest : List (Option Int))
    (h : ¬ s.repo.hasKey (bigIntString i)) :
    s.getRndNumber (i :: rest) = some (i, s.withKey i, rest) := by
  cases s with
  | mk repo conns =>
    simp only at h
    rw [Server.getRndNumber]
    simp [CheckOrStore_stored repo i h, Server.withKey]

theorem getRndNumber_all_present (s : Server) (draws : List (Option Int))
    (h : ∀ i ∈ draws, s.repo.hasKey (bigIntString i)) : s.getRndNumber draws = none := by
  induction draws with
  | nil => rfl
  | cons i rest ih =>
    rw [getRndNumber_skip s i rest (h i (List.mem_cons_self _ _))]
    exact ih (fun j hj => h j (List.mem_cons_of_mem _ hj))

theorem getRndNumber_first_absent (s : Server) (n : Nat) :
    ∀ (draws : List (Option Int)) (v : Option Int),
      (∀ m, m < n → ∀ x, draws[m]? = some x → s.repo.hasKey (bigIntString x)) →
      draws[n]? = some v → ¬ s.repo.hasKey (bigIntString v) →
      s.getRndNumber draws = some (v, s.withKey v, draws.drop (n + 1)) := by
  induction n with
  | zero =>
    intro draws v _ hv hk
    cases draws with
    | nil => simp at hv
    | cons i rest =>
      simp only [List.getElem?_cons_zero, Option.some.injEq] at hv
      subst hv
      simpa using getRndNumber_take s i rest hk
  | succ n ih =>
    intro draws v hlt hv hk
    cases draws with
    | nil => simp at hv
    | cons i rest =>
      have h0 : s.repo.hasKey (bigIntString i) := hlt 0 (Nat.succ_pos n) i (by simp)
      rw [getRndNumber_skip s i rest h0]
      simp only [List.getElem?_cons_succ] at hv
      have := ih rest v (fun m hm x hx => hlt (m + 1) (by omega) x (by simpa using hx)) hv hk
      simpa using this

/-- What a returning call did: it skipped draws whose keys were stored, and stored and returned
the first draw whose key was not. -/
theorem getRndNumber_returns (draws : List (Option Int)) :
    ∀ (s s1 : Server) (v : Option Int) (rest : List (Option Int)),
      s.getRndNumber draws = some (v, s1, rest) →
      ¬ s.repo.hasKey (bigIntString v) ∧ s1 = s.withKey v ∧
        ∃ skipped, draws = skipped ++ v :: rest ∧ ∀ i ∈ skipped, s.repo.hasKey (bigIntString i) := by
  induction draws with
  | nil => intro s s1 v rest h; simp [Server.getRndNumber] at h
  | cons i tl ih =>
    intro s s1 v rest h
    by_cases hk : s.repo.hasKey (bigIntString i)
    · rw [getRndNumber_skip s i tl hk] at h
      obtain ⟨h1, h2, skipped, h3, h4⟩ := ih s s1 v rest h
      refine ⟨h1, h2, i :: skipped, by simp [h3], ?_⟩
      intro j hj
      rcases List.mem_cons.mp hj with rfl | hj
      · exact hk
      · exact h4 j hj
    · rw [getRndNumber_take s i tl hk] at h
      simp only [Option.some.injEq, Prod.mk.injEq] at h
      obtain ⟨rfl, rfl, rfl⟩ := h
      exact ⟨hk, rfl, [], by simp, by simp⟩

theorem hasKey_withKey (s : Server) (v : Option Int) (k : String) :
    (s.withKey v).repo.hasKey k ↔ (s.repo.hasKey k ∨ k = bigIntString v) := by
  simp only [Server.withKey, hasKey_cons]
  constructor
  · rintro (h | h)
    · exact Or.inr h.symm
    · exact Or.inl h
  · rintro (h | h)
    · exact Or.inr h
    · exact Or.inl h.symm

/-- What a returning run of calls did: the keys afterwards are the keys before and the keys
of the returned values, no returned value had its key stored before, and the returned values
are pairwise distinct draws. -/
theorem getRndNumbers_returns (n : Nat) :
    ∀ (s s1 : Server) (draws rest vs : List (Option Int)),
      s.getRndNumbers n draws = some (vs, s1, rest) →
      vs.length = n ∧ vs.Nodup ∧ (∀ v ∈ vs, ¬ s.repo.hasKey (bigIntString v)) ∧
        (∀ v ∈ vs, v ∈ draws) ∧ s1.conns = s.conns ∧
        (∀ k, s1.repo.hasKey k ↔ (s.repo.hasKey k ∨ ∃ v ∈ vs, bigIntString v = k)) := by
  induction n with
  | zero =>
    intro s s1 draws rest vs h
    simp only [Server.getRndNumbers, Option.some.injEq, Prod.mk.injEq] at h
    obtain ⟨rfl, rfl, rfl⟩ := h
    simp
  | succ n ih =>
    intro s s1 draws rest vs h
    rw [Server.getRndNumbers] at h
    cases h1 : s.getRndNumber draws with
    | none => simp [h1] at h
    | some res =>
      obtain ⟨v, s2, rest2⟩ := res
      simp only [h1] at h
      cases h2 : s2.getRndNumbers n rest2 with
      | none => simp [h2] at h
      | some res2 =>
        obtain ⟨vs2, s3, rest3⟩ := res2
        simp only [h2, Option.some.injEq, Prod.mk.injEq] at h
        obtain ⟨rfl, rfl, rfl⟩ := h
        obtain ⟨hv, hs2, skipped, hdraws, _⟩ := getRndNumber_returns draws s s2 v rest2 h1
        obtain ⟨hlen, hnd, hfresh, hmem, hconns, hkeys⟩ := ih s2 _ rest2 _ vs2 h2
        subst hs2
        refine ⟨by simp [hlen], ?_, ?_, ?_, ?_, ?_⟩
        · refine List.nodup_cons.mpr ⟨?_, hnd⟩
          intro hin
          exact hfresh v hin ((hasKey_withKey s v _).mpr (Or.inr rfl))
        · intro w hw
          rcases List.mem_cons.mp hw with rfl | hw
          · exact hv
          · exact fun hk => hfresh w hw ((hasKey_withKey s v _).mpr (Or.inl hk))
        · intro w hw
          rw [hdraws]
          rcases List.mem_cons.mp hw with rfl | hw
          · simp
          · have := hmem w hw
            simp [this]
        · rw [hconns]; rfl
        · intro k
          rw [hkeys k, hasKey_withKey]
          constructor
          · rintro ((h | h) | ⟨w, hw, h⟩)
            · exact Or.inl h
            · exact Or.inr ⟨v, List.mem_cons_self _ _, h.symm⟩
            · exact Or.inr ⟨w, List.mem_cons_of_mem _ hw, h⟩
          · rintro (h | ⟨w, hw, h⟩)
            · exact Or.inl (Or.inl h)
            · rcases List.mem_cons.mp hw with rfl | hw
              · exact Or.inl (Or.inr h.symm)
              · exact Or.inr ⟨w, hw, h⟩

/-! ## The bound of the draw -/

theorem foldl_range_factorial (m : Nat) :
    (List.range m).foldl (fun (acc : Int) (k : Nat) => acc * (1 + (k : Int))) 1 = (m.factorial : Int) := by
  induction m with
  | zero => simp
  | succ m ih =>
    rw [List.range_succ, List.foldl_append, ih]
    simp only [List.foldl_cons, List.foldl_nil, Nat.factorial_succ, Nat.cast_mul, Nat.cast_add,
      Nat.cast_one]
    ring

theorem MulRange_one (m : Nat) (h : 1 ≤ m) : MulRange 1 (m : Int) = (m.factorial : Int) := by
  have h1 : ¬ (1 : Int) > (m : Int) := by omega
  have h2 : ¬ ((1 : Int) ≤ 0 ∧ (m : Int) ≥ 0) := by omega
  have h3 : ((m : Int) - 1 + 1).toNat = m := by omega
  simp only [MulRange, h1, h2, if_false, h3]
  exact foldl_range_factorial m

theorem drawBound_eq : drawBound = ((Nat.factorial 1000 : Nat) : Int) := by
  have := MulRange_one 1000 (by decide)
  simpa [drawBound] using this

theorem drawBound_pos : 0 < drawBound := by
  rw [drawBound_eq]
  exact_mod_cast Nat.factorial_pos 1000

/-! ## Claims on the allocator -/

/-- C1. Starting from a fresh Repo, whatever outcomes the random source supplies (failed
draws included), when `n` successive calls of `getRndNumber` all return, the `n` returned
values are pairwise distinct. -/
theorem C1_sequential_uniqueness (n : Nat) (draws vs rest : List (Option Int)) (s1 : Server)
    (h : (Server.New Repo.New).getRndNumbers n draws = some (vs, s1, rest)) :
    vs.length = n ∧ vs.Pairwise (fun a b => a ≠ b) := by
  obtain ⟨hlen, hnd, _⟩ := getRndNumbers_returns n _ _ _ _ _ h
  exact ⟨hlen, hnd⟩

/-- Three calls on draws 5, 5, 7, 5, 8 return 5, 7 and 8. -/
theorem C1_sequential_uniqueness_witness :
    (Server.New Repo.New).getRndNumbers 3 [some 5, some 5, some 7, some 5, some 8]
        = some ([some 5, some 7, some 8],
            { repo := { ints := [("8", ()), ("7", ()), ("5", ())] }, conns := [] }, []) ∧
      ([some 5, some 7, some 8] : List (Option Int)).length = 3 ∧
      ([some 5, some 7, some 8] : List (Option Int)).Pairwise (fun a b => a ≠ b) :=
  ⟨by decide, C1_sequential_uniqueness 3 [some 5, some 5, some 7, some 5, some 8]
    [some 5, some 7, some 8] []
    { repo := { ints := [("8", ()), ("7", ()), ("5", ())] }, conns := [] } (by decide)⟩

/-- C2, as stated, fails: on a fresh Repo the draw 0, which lies in `[0, U)`, is returned,
and 0 is not in `[1, U]`. -/
theorem C2_range_counterexample :
    validDraw drawBound (some 0) ∧
      (Server.New Repo.New).getRndNumber [some 0]
        = some (some 0, { repo := { ints := [("0", ())] }, conns := [] }, []) ∧
      ¬ ((1 : Int) ≤ 0 ∧ (0 : Int) ≤ drawBound) := by
  exact ⟨⟨le_refl _, drawBound_pos⟩, by decide, by omega⟩

/-- C2, amended. The bound `U` of the draw is 1000!, and when every draw is as `rand.Int`
documents it (a value in `[0, U)` or a failure), every integer returned by `getRndNumber`
lies in `[0, U - 1]`. -/
theorem C2_range_amended (s s1 : Server) (draws rest : List (Option Int)) (v : Int)
    (hdraws : ∀ d ∈ draws, validDraw drawBound d)
    (h : s.getRndNumber draws = some (some v, s1, rest)) :
    drawBound = ((Nat.factorial 1000 : Nat) : Int) ∧ 0 ≤ v ∧ v ≤ drawBound - 1 := by
  obtain ⟨_, _, skipped, hd, _⟩ := getRndNumber_returns draws s s1 (some v) rest h
  have hmem : some v ∈ draws := by rw [hd]; simp
  have hv : 0 ≤ v ∧ v < drawBound := hdraws (some v) hmem
  exact ⟨drawBound_eq, hv.1, by omega⟩

/-- The draws 3, 3, 4 on a server that holds the key of 3 return 4. -/
theorem C2_range_amended_witness :
    (0 : Int) ≤ 4 ∧ (4 : Int) ≤ drawBound - 1 := by
  have hb : ∀ d ∈ ([some 3, some 3, some 4] : List (Option Int)), validDraw drawBound d := by
    have h5 : (5 : Int) ≤ drawBound := by
      rw [drawBound_eq]
      exact_mod_cast Nat.self_le_factorial 5 |>.trans (Nat.factorial_le (by decide))
    intro d hd
    simp only [List.mem_cons, List.mem_singleton, List.not_mem_nil, or_false] at hd
    rcases hd with rfl | rfl | rfl <;> exact ⟨by decide, by omega⟩
  exact (C2_range_amended { repo := { ints := [("3", ())] }, conns := [] }
    { repo := { ints := [("4", ()), ("3", ())] }, conns := [] }
    [some 3, some 3, some 4] [] 4 hb (by decide)).2

/-- C3 fails on the code: on a fresh Repo a failed first draw is not drawn again. The call
returns the nil pointer, stores the key `<nil>` and leaves the next draw unused. -/
theorem C3_failed_draw_returned :
    (Server.New Repo.New).getRndNumber [none, some 5]
      = some (none, { repo := { ints := [("<nil>", ())] }, conns := [] }, [some 5]) := by
  decide

/-- What the code keeps of the used-set invariant: after any number of returned calls on a
fresh Repo the stored keys are the `String()` texts of the returned pointers, the text
`<nil>` for a returned nil pointer included; and a call, in any state, keeps every key
stored before it and adds the key of the pointer it returns. -/
theorem getRndNumbers_keys (n : Nat) (draws vs rest : List (Option Int)) (s1 : Server)
    (h : (Server.New Repo.New).getRndNumbers n draws = some (vs, s1, rest)) :
    (∀ k, s1.repo.hasKey k ↔ ∃ v ∈ vs, bigIntString v = k) ∧
      (∀ (s s2 : Server) (ds r2 : List (Option Int)) (v : Option Int),
        s.getRndNumber ds = some (v, s2, r2) →
          (∀ k, s.repo.hasKey k → s2.repo.hasKey k) ∧
          s2.repo.ints = (bigIntString v, ()) :: s.repo.ints) := by
  constructor
  · obtain ⟨_, _, _, _, _, hkeys⟩ := getRndNumbers_returns n _ _ _ _ _ h
    intro k
    rw [hkeys k]
    constructor
    · rintro (hk | hk)
      · exact absurd hk (not_hasKey_New k)
      · exact hk
    · exact fun hk => Or.inr hk
  · intro s s2 ds r2 v hcall
    obtain ⟨_, hs2, _⟩ := getRndNumber_returns ds s s2 v r2 hcall
    subst hs2
    exact ⟨fun k hk => (hasKey_withKey s v k).mpr (Or.inl hk), rfl⟩

/-- C6 fails on the code: one call on a fresh Repo whose first draw fails returns the nil
pointer and leaves the key `<nil>` stored, and `<nil>` is the decimal string of no integer,
so a stored key is not the decimal string of any value a call returned. -/
theorem C6_nil_key_stored :
    (Server.New Repo.New).getRndNumbers 1 [none]
        = some ([none], { repo := { ints := [("<nil>", ())] }, conns := [] }, []) ∧
      Repo.hasKey { ints := [("<nil>", ())] } "<nil>" ∧
      (¬ ∃ i : Int, some i ∈ ([none] : List (Option Int)) ∧ bigIntString (some i) = "<nil>") ∧
      (∀ i : Int, bigIntString (some i) ≠ "<nil>") := by
  refine ⟨by decide, by decide, ?_, fun i => bigIntString_ne_nil i⟩
  rintro ⟨i, hi, _⟩
  simp at hi

/-- C7. On a Repo reached from `New` by any earlier `CheckOrStore` calls, `CheckOrStore` of a
non-nil integer `i` returns true exactly when an integer equal to `i` was an argument of an
earlier call, and then the Repo is unchanged; otherwise it returns false and the key of `i`,
and no other key, is added to the stored keys. Two integers have the same key exactly when
they are equal. -/
theorem C7_check_or_store (hist : List (Option Int)) (i : Int) :
    (((Repo.New.checkOrStoreAll hist).CheckOrStore (some i)).2 = true ↔
        ∃ j : Int, some j ∈ hist ∧ j = i) ∧
      (((Repo.New.checkOrStoreAll hist).CheckOrStore (some i)).2 = true →
        ((Repo.New.checkOrStoreAll hist).CheckOrStore (some i)).1
          = Repo.New.checkOrStoreAll hist) ∧
      (((Repo.New.checkOrStoreAll hist).CheckOrStore (some i)).2 = false →
        ((Repo.New.checkOrStoreAll hist).CheckOrStore (some i)).1.ints
            = (bigIntString (some i), ()) :: (Repo.New.checkOrStoreAll hist).ints ∧
          ¬ (Repo.New.checkOrStoreAll hist).hasKey (bigIntString (some i)) ∧
          ∀ k, ((Repo.New.checkOrStoreAll hist).CheckOrStore (some i)).1.hasKey k ↔
            ((Repo.New.checkOrStoreAll hist).hasKey k ∨ k = bigIntString (some i))) ∧
      (∀ a b : Int, bigIntString (some a) = bigIntString (some b) ↔ a = b) := by
  refine ⟨?_, ?_, ?_, bigIntString_inj⟩
  · rw [CheckOrStore_flag, hasKey_checkOrStoreAll]
    constructor
    · rintro (h | ⟨a, ha, h⟩)
      · exact absurd h (not_hasKey_New _)
      · have := bigIntString_injective _ _ h
        subst this
        exact ⟨i, ha, rfl⟩
    · rintro ⟨j, hj, rfl⟩
      exact Or.inr ⟨some j, hj, rfl⟩
  · intro h
    rw [CheckOrStore_loaded _ _ ((CheckOrStore_flag _ _).mp h)]
  · intro h
    have hk : ¬ (Repo.New.checkOrStoreAll hist).hasKey (bigIntString (some i)) := by
      intro hc
      rw [(CheckOrStore_flag _ _).mpr hc] at h
      exact Bool.noConfusion h
    refine ⟨?_, hk, fun k => hasKey_CheckOrStore _ _ k⟩
    rw [CheckOrStore_stored _ _ hk]

/-- After the calls with 7, nil and -3, the integer 7 is found and 3 is stored. -/
theorem C7_check_or_store_witness :
    ((Repo.New.checkOrStoreAll [some 7, none, some (-3)]).CheckOrStore (some 7)).2 = true ∧
      ((Repo.New.checkOrStoreAll [some 7, none, some (-3)]).CheckOrStore (some 3)).1.ints
        = [("3", ()), ("-3", ()), ("<nil>", ()), ("7", ())] :=
  ⟨(C7_check_or_store [some 7, none, some (-3)] 7).1.mpr ⟨7, by decide, rfl⟩,
    ((C7_check_or_store [some 7, none, some (-3)] 3).2.2.1 (by decide)).1.trans (by decide)⟩

theorem firstDraws_getElem? (d : Nat → Int) (k m : Nat) :
    (firstDraws d k)[m]? = if m < k then some (some (d m)) else none := by
  unfold firstDraws
  by_cases h : m < k
  · simp [h, List.getElem?_range]
  · have hk : k ≤ m := by omega
    simp [h, List.getElem?_eq_none, hk]

theorem mem_firstDraws (d : Nat → Int) (k : Nat) (x : Option Int) :
    x ∈ firstDraws d k ↔ ∃ m, m < k ∧ x = some (d m) := by
  unfold firstDraws
  simp only [List.mem_map, List.mem_range]
  constructor
  · rintro ⟨m, hm, rfl⟩; exact ⟨m, hm, rfl⟩
  · rintro ⟨m, hm, rfl⟩; exact ⟨m, hm, rfl⟩

theorem getRndNumber_firstDraws_none (s : Server) (d : Nat → Int) (k : Nat)
    (h : ∀ m, m < k → s.repo.hasKey (bigIntString (some (d m)))) :
    s.getRndNumber (firstDraws d k) = none := by
  apply getRndNumber_all_present
  intro i hi
  obtain ⟨m, hm, rfl⟩ := (mem_firstDraws d k i).mp hi
  exact h m hm

theorem getRndNumber_firstDraws_some (s : Server) (d : Nat → Int) (n k : Nat)
    (hlt : ∀ m, m < n → s.repo.hasKey (bigIntString (some (d m))))
    (hn : ¬ s.repo.hasKey (bigIntString (some (d n)))) (hk : n < k) :
    s.getRndNumber (firstDraws d k)
      = some (some (d n), s.withKey (some (d n)), (firstDraws d k).drop (n + 1)) := by
  apply getRndNumber_first_absent s n
  · intro m hm x hx
    rw [firstDraws_getElem?] at hx
    have hmk : m < k := by omega
    simp only [hmk, if_true, Option.some.injEq] at hx
    subst hx
    exact hlt m hm
  · rw [firstDraws_getElem?]; simp [hk]
  · exact hn

/-- C10. On an unending run `d` of successful draws, from any server state: (1) the call
returns on some finite number of draws exactly when some draw has a key that is not stored;
(2) when draw number `n` is the first such draw, the call is still running after any `k ≤ n`
draws, and on more draws it returns `d n`, has stored its key only, and has consumed exactly
`n + 1` draws; (3) when the key of every draw is stored, the call is still running after any
number of draws, and no result reports exhaustion. -/
theorem C10_termination (s : Server) (d : Nat → Int) :
    ((∃ k, (s.getRndNumber (firstDraws d k)).isSome = true) ↔
        ∃ n, ¬ s.repo.hasKey (bigIntString (some (d n)))) ∧
      (∀ n, (∀ m, m < n → s.repo.hasKey (bigIntString (some (d m)))) →
        ¬ s.repo.hasKey (bigIntString (some (d n))) →
          (∀ k, k ≤ n → s.getRndNumber (firstDraws d k) = none) ∧
          (∀ k, n < k → s.getRndNumber (firstDraws d k)
            = some (some (d n),
                { s with repo := { ints := (bigIntString (some (d n)), ()) :: s.repo.ints } },
                (firstDraws d k).drop (n + 1)))) ∧
      ((∀ n, s.repo.hasKey (bigIntString (some (d n)))) →
        ∀ k, s.getRndNumber (firstDraws d k) = none) := by
  refine ⟨⟨?_, ?_⟩, ?_, ?_⟩
  · rintro ⟨k, hk⟩
    by_contra hall
    have hall2 : ∀ n, s.repo.hasKey (bigIntString (some (d n))) := by
      intro n
      by_contra hc
      exact hall ⟨n, hc⟩
    rw [getRndNumber_firstDraws_none s d k (fun m _ => hall2 m)] at hk
    exact Bool.noConfusion hk
  · intro hex
    classical
    have hmin : ∀ m, m < Nat.find hex → ¬ ¬ s.repo.hasKey (bigIntString (some (d m))) :=
      fun m hm => Nat.find_min hex hm
    have hspec := Nat.find_spec hex
    refine ⟨Nat.find hex + 1, ?_⟩
    rw [getRndNumber_firstDraws_some s d (Nat.find hex) _ ?_ hspec (Nat.lt_succ_self _)]
    · rfl
    · intro m hm
      by_contra hc
      exact hmin m hm hc
  · intro n hlt hn
    constructor
    · intro k hk
      exact getRndNumber_firstDraws_none s d k (fun m hm => hlt m (by omega))
    · intro k hk
      exact getRndNumber_firstDraws_some s d n k hlt hn hk
  · intro hall k
    exact getRndNumber_firstDraws_none s d k (fun m _ => hall m)

/-- Bound 1 after one allocation: every draw is 0 and its key is stored, so the call is
still running after 40 draws; on draws 0, 0, 1, ... the third draw is returned. -/
theorem C10_termination_witness :
    Server.getRndNumber { repo := { ints := [("0", ())] }, conns := [] }
        (firstDraws (fun _ => 0) 40) = none ∧
      Server.getRndNumber { repo := { ints := [("0", ())] }, conns := [] }
        (firstDraws (fun n => if n < 2 then 0 else 1) 5)
        = some (some 1, { repo := { ints := [("1", ()), ("0", ())] }, conns := [] },
            [some 1, some 1]) :=
  ⟨(C10_termination { repo := { ints := [("0", ())] }, conns := [] } (fun _ => 0)).2.2
      (fun _ => by decide) 40,
    ((C10_termination { repo := { ints := [("0", ())] }, conns := [] }
      (fun n => if n < 2 then 0 else 1)).2.1 2
        (fun m hm => by interval_cases m <;> decide) (by decide)).2 5 (by decide)⟩

/-! ## Facts on the registry -/

namespace SyncMap

variable {K V : Type} [DecidableEq K]

theorem Swap_map (m : SyncMap K V) (k : K) (v : V) : (Swap m k v).1 = (k, v) :: Delete m k := by
  unfold Swap; cases Load m k <;> rfl

theorem Swap_previous (m : SyncMap K V) (k : K) (v : V) : (Swap m k v).2.1 = Load m k := by
  unfold Swap; cases Load m k <;> rfl

theorem Swap_loaded (m : SyncMap K V) (k : K) (v : V) :
    (Swap m k v).2.2 = (Load m k).isSome := by
  unfold Swap; cases Load m k <;> rfl

theorem Load_Swap (m : SyncMap K V) (k k' : K) (v : V) :
    Load (Swap m k v).1 k' = if k' = k then some v else Load m k' := by
  rw [Swap_map, Load_cons, Load_Delete]
  by_cases h : k' = k
  · subst h; simp
  · have h1 : ¬ k = k' := fun e => h e.symm
    simp [h, h1]

theorem entryCount_Swap (m : SyncMap K V) (k k' : K) (v : V) :
    entryCount (Swap m k v).1 k' = if k' = k then 1 else entryCount m k' := by
  rw [Swap_map, entryCount_cons, entryCount_Delete]
  by_cases h : k' = k
  · subst h; simp
  · have h1 : ¬ k = k' := fun e => h e.symm
    simp [h, h1]

theorem CompareAndDelete_hit [DecidableEq V] (m : SyncMap K V) (k : K) (old : V)
    (h : Load m k = some old) : CompareAndDelete m k old = (Delete m k, true) := by
  simp [CompareAndDelete, h]

theorem CompareAndDelete_miss [DecidableEq V] (m : SyncMap K V) (k : K) (old : V)
    (h : Load m k ≠ some old) : CompareAndDelete m k old = (m, false) := by
  unfold CompareAndDelete
  cases h1 : Load m k with
  | none => rfl
  | some a =>
    have : ¬ a = old := fun e => h (by rw [h1, e])
    simp [this]

theorem mem_of_Load (m : SyncMap K V) (k : K) (v : V) (h : Load m k = some v) : (k, v) ∈ m := by
  induction m with
  | nil => simp [Load] at h
  | cons e m ih =>
    obtain ⟨a, b⟩ := e
    rw [Load_cons] at h
    by_cases h1 : a = k
    · simp only [h1, if_true, Option.some.injEq] at h
      subst h1; subst h
      exact List.mem_cons_self _ _
    · simp only [h1, if_false] at h
      exact List.mem_cons_of_mem _ (ih h)

end SyncMap

theorem accept_conns (s : Server) (host : String) (conn : Conn) :
    (s.serveWSAccept host conn).1.conns = (host, some conn) :: SyncMap.Delete s.conns host := by
  simp [Server.serveWSAccept, SyncMap.Swap_map]

theorem accept_previous (s : Server) (host : String) (conn : Conn) :
    (s.serveWSAccept host conn).2.1 = SyncMap.Load s.conns host := by
  simp [Server.serveWSAccept, SyncMap.Swap_previous]

theorem accept_closed (s : Server) (host : String) (conn : Conn) :
    (s.serveWSAccept host conn).2.2 =
      match SyncMap.Load s.conns host with
      | some (some c) => [c]
      | _ => [] := by
  simp only [Server.serveWSAccept, SyncMap.Swap_previous, SyncMap.Swap_loaded]
  cases h : SyncMap.Load s.conns host with
  | none => simp
  | some p => cases p <;> simp

theorem teardown_hit (s : Server) (host : String) (conn : Conn)
    (h : SyncMap.Load s.conns host = some (some conn)) :
    s.serveWSTeardown host conn
      = ({ s with conns := SyncMap.Delete s.conns host }, true, [conn]) := by
  simp [Server.serveWSTeardown, SyncMap.CompareAndDelete_hit _ _ _ h]

theorem teardown_miss (s : Server) (host : String) (conn : Conn)
    (h : SyncMap.Load s.conns host ≠ some (some conn)) :
    s.serveWSTeardown host conn = (s, false, [conn]) := by
  simp [Server.serveWSTeardown, SyncMap.CompareAndDelete_miss _ _ _ h]

theorem teardownRepeat_miss (s : Server) (host : String) (conn : Conn)
    (h : SyncMap.Load s.conns host ≠ some (some conn)) (n : Nat) :
    s.serveWSTeardownRepeat host conn n = (s, List.replicate n false) := by
  induction n with
  | zero => rfl
  | succ n ih =>
    simp [Server.serveWSTeardownRepeat, teardown_miss s host conn h, ih, List.replicate_succ]

/-! ## Claims on the registry -/

/-- C4. For every registry state, host `h` and new connection `c2`, the accept step leaves
`h` mapped to `c2`, in one entry; when `h` was mapped to the connection `c1`, `Swap` returns
`c1` and `c1` is the one connection the step closes; when `h` had no entry (or a nil one),
the step closes nothing; the entry of every other host is as before. -/
theorem C4_replacement_on_accept (s : Server) (h : String) (c2 : Conn) :
    SyncMap.Load (s.serveWSAccept h c2).1.conns h = some (some c2) ∧
      SyncMap.entryCount (s.serveWSAccept h c2).1.conns h = 1 ∧
      (∀ c1 : Conn, SyncMap.Load s.conns h = some (some c1) →
        (s.serveWSAccept h c2).2.1 = some (some c1) ∧ (s.serveWSAccept h c2).2.2 = [c1]) ∧
      (SyncMap.Load s.conns h = none →
        (s.serveWSAccept h c2).2.1 = none ∧ (s.serveWSAccept h c2).2.2 = []) ∧
      (SyncMap.Load s.conns h = some none → (s.serveWSAccept h c2).2.2 = []) ∧
      (∀ h2, h2 ≠ h →
        SyncMap.Load (s.serveWSAccept h c2).1.conns h2 = SyncMap.Load s.conns h2 ∧
        SyncMap.entryCount (s.serveWSAccept h c2).1.conns h2 = SyncMap.entryCount s.conns h2) ∧
      (s.serveWSAccept h c2).1.repo = s.repo := by
  have hmap : (s.serveWSAccept h c2).1.conns = (SyncMap.Swap s.conns h (some c2)).1 := rfl
  refine ⟨?_, ?_, ?_, ?_, ?_, ?_, rfl⟩
  · rw [hmap, SyncMap.Load_Swap]; simp
  · rw [hmap, SyncMap.entryCount_Swap]; simp
  · intro c1 h1
    rw [accept_previous, accept_closed, h1]
    exact ⟨rfl, rfl⟩
  · intro h1
    rw [accept_previous, accept_closed, h1]
    exact ⟨rfl, rfl⟩
  · intro h1
    rw [accept_closed, h1]
  · intro h2 hne
    rw [hmap, SyncMap.Load_Swap, SyncMap.entryCount_Swap]
    simp [hne]

/-- A second connection 2 from host 10.0.0.5 evicts and closes connection 1; the entry of
host 10.0.0.6 stays. -/
theorem C4_replacement_on_accept_witness :
    Server.serveWSAccept
        { repo := Repo.New, conns := [("10.0.0.6", some 7), ("10.0.0.5", some 1)] } "10.0.0.5" 2
      = ({ repo := Repo.New, conns := [("10.0.0.5", some 2), ("10.0.0.6", some 7)] },
          some (some 1), [1]) ∧
      (Server.serveWSAccept
        { repo := Repo.New, conns := [("10.0.0.6", some 7), ("10.0.0.5", some 1)] }
        "10.0.0.5" 2).2.2 = [1] :=
  ⟨by decide,
    ((C4_replacement_on_accept
      { repo := Repo.New, conns := [("10.0.0.6", some 7), ("10.0.0.5", some 1)] }
      "10.0.0.5" 2).2.2.1 1 (by decide)).2⟩

/-- C5. When host `h` is mapped to a handle other than `c1`, the teardown step with `c1`
gets false from `CompareAndDelete` and leaves the server as it is, and so does every
repetition of it; when `h` is mapped to exactly `c1`, it gets true, `h` has no entry
afterwards, and the entry of every other host is as before. -/
theorem C5_guarded_detach (s : Server) (h : String) (c1 : Conn) :
    (∀ p2 : Option Conn, SyncMap.Load s.conns h = some p2 → p2 ≠ some c1 →
        (s.serveWSTeardown h c1).2.1 = false ∧ (s.serveWSTeardown h c1).1 = s ∧
        SyncMap.Load (s.serveWSTeardown h c1).1.conns h = some p2 ∧
        ∀ n, s.serveWSTeardownRepeat h c1 n = (s, List.replicate n false)) ∧
      (SyncMap.Load s.conns h = some (some c1) →
        (s.serveWSTeardown h c1).2.1 = true ∧
        SyncMap.Load (s.serveWSTeardown h c1).1.conns h = none ∧
        SyncMap.entryCount (s.serveWSTeardown h c1).1.conns h = 0 ∧
        (∀ h2, h2 ≠ h →
          SyncMap.Load (s.serveWSTeardown h c1).1.conns h2 = SyncMap.Load s.conns h2 ∧
          SyncMap.entryCount (s.serveWSTeardown h c1).1.conns h2
            = SyncMap.entryCount s.conns h2) ∧
        (s.serveWSTeardown h c1).1.repo = s.repo) := by
  constructor
  · intro p2 hp hne
    have hmiss : SyncMap.Load s.conns h ≠ some (some c1) := by
      rw [hp]; exact fun e => hne (Option.some.inj e)
    rw [teardown_miss s h c1 hmiss]
    exact ⟨rfl, rfl, hp, teardownRepeat_miss s h c1 hmiss⟩
  · intro hp
    rw [teardown_hit s h c1 hp]
    refine ⟨rfl, ?_, ?_, ?_, rfl⟩
    · simp [SyncMap.Load_Delete]
    · simp [SyncMap.entryCount_Delete]
    · intro h2 hne
      simp [SyncMap.Load_Delete, SyncMap.entryCount_Delete, hne]

/-- Host 10.0.0.5 is mapped to connection 2: three teardowns with the stale handle 1 change
nothing, the teardown with handle 2 removes the entry. -/
theorem C5_guarded_detach_witness :
    Server.serveWSTeardownRepeat
        { repo := Repo.New, conns := [("10.0.0.5", some 2), ("10.0.0.6", some 7)] } "10.0.0.5" 1 3
      = ({ repo := Repo.New, conns := [("10.0.0.5", some 2), ("10.0.0.6", some 7)] },
          [false, false, false]) ∧
      (Server.serveWSTeardown
        { repo := Repo.New, conns := [("10.0.0.5", some 2), ("10.0.0.6", some 7)] }
        "10.0.0.5" 2).2.1 = true :=
  ⟨((C5_guarded_detach
      { repo := Repo.New, conns := [("10.0.0.5", some 2), ("10.0.0.6", some 7)] }
      "10.0.0.5" 1).1 (some 2) (by decide) (by decide)).2.2.2 3,
    ((C5_guarded_detach
      { repo := Repo.New, conns := [("10.0.0.5", some 2), ("10.0.0.6", some 7)] }
      "10.0.0.5" 2).2 (by decide)).1⟩

theorem host_unique (acc : SyncMap String Conn) (hnd : (acc.map Prod.snd).Nodup)
    (h1 h2 : String) (c : Conn) (m1 : (h1, c) ∈ acc) (m2 : (h2, c) ∈ acc) : h1 = h2 := by
  induction acc with
  | nil => simp at m1
  | cons e acc ih =>
    obtain ⟨a, b⟩ := e
    simp only [List.map_cons, List.nodup_cons, List.mem_map, Prod.exists, exists_eq_right,
      not_exists] at hnd
    simp only [List.mem_cons, Prod.mk.injEq] at m1 m2
    rcases m1 with ⟨rfl, rfl⟩ | m1
    · rcases m2 with ⟨rfl, _⟩ | m2
      · rfl
      · exact absurd m2 (hnd.1 h2)
    · rcases m2 with ⟨rfl, rfl⟩ | m2
      · exact absurd m1 (hnd.1 h1)
      · exact ih hnd.2 m1 m2

theorem Inv_init : World.init.Inv where
  single := by intro h; simp [World.init, Server.New, SyncMap.entryCount]
  entry := by intro h p hp; simp [World.init, Server.New, SyncMap.Load] at hp
  once := by simp [World.init]
  ended := by intro c hc; simp [World.init] at hc
  shut := by intro c hc; simp [World.init] at hc

theorem Inv_accept (w : World) (hw : w.Inv) (host : String) (conn : Conn)
    (hfresh : conn ∉ w.accepted.map Prod.snd) :
    World.Inv { srv := (w.srv.serveWSAccept host conn).1,
                accepted := (host, conn) :: w.accepted,
                terminated := w.terminated,
                closed := (w.srv.serveWSAccept host conn).2.2 ++ w.closed } where
  single := by
    intro h
    have hmap : (w.srv.serveWSAccept host conn).1.conns
        = (SyncMap.Swap w.srv.conns host (some conn)).1 := rfl
    simp only [hmap, SyncMap.entryCount_Swap]
    by_cases hh : h = host
    · simp [hh]
    · simpa [hh] using hw.single h
  entry := by
    intro h p hp
    have hmap : (w.srv.serveWSAccept host conn).1.conns
        = (SyncMap.Swap w.srv.conns host (some conn)).1 := rfl
    simp only [hmap, SyncMap.Load_Swap] at hp
    -- what the step closed was the entry of `host`
    have hclosed : ∀ x ∈ (w.srv.serveWSAccept host conn).2.2,
        SyncMap.Load w.srv.conns host = some (some x) := by
      intro x hx
      rw [accept_closed] at hx
      cases hl : SyncMap.Load w.srv.conns host with
      | none => simp [hl] at hx
      | some q =>
        cases q with
        | none => simp [hl] at hx
        | some y =>
          simp only [hl, List.mem_singleton] at hx
          rw [hx]
    by_cases hh : h = host
    · subst hh
      simp only [if_true, Option.some.injEq] at hp
      subst hp
      refine ⟨conn, rfl, by simp [SyncMap.Load_cons], ?_, ?_⟩
      · exact fun hc => hfresh (hw.ended conn hc)
      · simp only [List.mem_append, not_or]
        constructor
        · intro hx
          obtain ⟨c, hc, hacc, _⟩ := hw.entry h _ (hclosed conn hx)
          have : c = conn := (Option.some.inj hc).symm
          subst this
          have := SyncMap.mem_of_Load _ _ _ hacc
          exact hfresh (List.mem_map.mpr ⟨(h, c), this, rfl⟩)
        · exact fun hc => hfresh (hw.shut conn hc)
    · simp only [hh, if_false] at hp
      obtain ⟨c, hc, hacc, hterm, hcl⟩ := hw.entry h p hp
      have hne : ¬ host = h := fun e => hh e.symm
      refine ⟨c, hc, by simp [SyncMap.Load_cons, hne, hacc], hterm, ?_⟩
      simp only [List.mem_append, not_or]
      refine ⟨?_, hcl⟩
      intro hx
      obtain ⟨c1, hc1, hacc1, _⟩ := hw.entry host _ (hclosed c hx)
      have : c1 = c := (Option.some.inj hc1).symm
      subst this
      exact hh (host_unique w.accepted hw.once h host c1
        (SyncMap.mem_of_Load _ _ _ hacc) (SyncMap.mem_of_Load _ _ _ hacc1))
  once := by
    simp only [List.map_cons, List.nodup_cons]
    exact ⟨hfresh, hw.once⟩
  ended := by
    intro c hc
    exact List.mem_cons_of_mem _ (hw.ended c hc)
  shut := by
    intro c hc
    simp only [List.mem_append] at hc
    rcases hc with hc | hc
    · rw [accept_closed] at hc
      cases hl : SyncMap.Load w.srv.conns host with
      | none => simp [hl] at hc
      | some q =>
        cases q with
        | none => simp [hl] at hc
        | some y =>
          simp only [hl, List.mem_singleton] at hc
          subst hc
          obtain ⟨c1, hc1, hacc1, _⟩ := hw.entry host _ hl
          have : c1 = c := (Option.some.inj hc1).symm
          subst this
          exact List.mem_cons_of_mem _
            (List.mem_map.mpr ⟨(host, c1), SyncMap.mem_of_Load _ _ _ hacc1, rfl⟩)
    · exact List.mem_cons_of_mem _ (hw.shut c hc)

theorem Inv_terminate (w : World) (hw : w.Inv) (host : String) (conn : Conn)
    (hacc : (host, conn) ∈ w.accepted) :
    World.Inv { srv := (w.srv.serveWSTeardown host conn).1,
                accepted := w.accepted,
                terminated := conn :: w.terminated,
                closed := (w.srv.serveWSTeardown host conn).2.2 ++ w.closed } where
  single := by
    intro h
    by_cases hp : SyncMap.Load w.srv.conns host = some (some conn)
    · rw [teardown_hit _ _ _ hp]
      simp only [SyncMap.entryCount_Delete]
      by_cases hh : h = host
      · simp [hh]
      · simpa [hh] using hw.single h
    · rw [teardown_miss _ _ _ hp]
      exact hw.single h
  entry := by
    intro h p hl
    have hclosed : (w.srv.serveWSTeardown host conn).2.2 = [conn] := rfl
    -- the entry was there before, and it is not the handle of the ended session
    have hold : SyncMap.Load w.srv.conns h = some p ∧ (h = host → p ≠ some conn) := by
      by_cases hp : SyncMap.Load w.srv.conns host = some (some conn)
      · rw [teardown_hit _ _ _ hp] at hl
        simp only [SyncMap.Load_Delete] at hl
        by_cases hh : h = host
        · simp [hh] at hl
        · simp only [hh, if_false] at hl
          exact ⟨hl, fun e => absurd e hh⟩
      · rw [teardown_miss _ _ _ hp] at hl
        refine ⟨hl, ?_⟩
        intro hh e
        subst hh; subst e
        exact hp hl
    obtain ⟨c, hc, hacc1, hterm, hcl⟩ := hw.entry h p hold.1
    have hne : c ≠ conn := by
      intro e
      subst e
      have hh : h = host := host_unique w.accepted hw.once h host c
        (SyncMap.mem_of_Load _ _ _ hacc1) hacc
      exact hold.2 hh hc
    refine ⟨c, hc, hacc1, ?_, ?_⟩
    · simp only [List.mem_cons, not_or]
      exact ⟨hne, hterm⟩
    · rw [hclosed]
      simp only [List.singleton_append, List.mem_cons, not_or]
      exact ⟨hne, hcl⟩
  once := hw.once
  ended := by
    intro c hc
    rcases List.mem_cons.mp hc with rfl | hc
    · exact List.mem_map.mpr ⟨(host, c), hacc, rfl⟩
    · exact hw.ended c hc
  shut := by
    intro c hc
    have hclosed : (w.srv.serveWSTeardown host conn).2.2 = [conn] := rfl
    rw [hclosed] at hc
    simp only [List.singleton_append] at hc
    rcases List.mem_cons.mp hc with rfl | hc
    · exact List.mem_map.mpr ⟨(host, c), hacc, rfl⟩
    · exact hw.shut c hc

theorem Inv_step (w : World) (hw : w.Inv) (e : Event) : (w.step e).Inv := by
  cases e with
  | accept host conn =>
    unfold World.step
    by_cases hf : conn ∈ w.accepted.map Prod.snd
    · simpa only [hf, if_true] using hw
    · simpa only [hf, if_false] using Inv_accept w hw host conn hf
  | terminate host conn =>
    unfold World.step
    by_cases hf : (host, conn) ∈ w.accepted
    · simpa only [hf, if_true] using Inv_terminate w hw host conn hf
    · simpa only [hf, if_false] using hw

theorem Inv_run (es : List Event) : ∀ w : World, w.Inv → (w.run es).Inv := by
  induction es with
  | nil => intro w hw; exact hw
  | cons e es ih => intro w hw; exact ih _ (Inv_step w hw e)

/-- C9. In every state reached from the empty registry by accept steps with fresh handles
and session-termination steps, every host has at most one entry, and an entry of host `h`
holds a non-nil connection that is the latest one accepted for `h`, whose session has not
ended and on which the server has not called `Close`. -/
theorem C9_registry_invariant (events : List Event) (h : String) :
    SyncMap.entryCount (World.init.run events).srv.conns h ≤ 1 ∧
      ∀ p, SyncMap.Load (World.init.run events).srv.conns h = some p →
        ∃ c, p = some c ∧ SyncMap.Load (World.init.run events).accepted h = some c ∧
          c ∉ (World.init.run events).terminated ∧ c ∉ (World.init.run events).closed := by
  have hinv := Inv_run events World.init Inv_init
  exact ⟨hinv.single h, hinv.entry h⟩

/-- Host a is accepted as 1, then as 2, host b as 3; session 1 ends, then session 3: the
registry holds connection 2 for a and nothing for b, and 1 and 3 are closed. -/
theorem C9_registry_invariant_witness :
    World.init.run [Event.accept "a" 1, Event.accept "a" 2, Event.accept "b" 3,
        Event.terminate "a" 1, Event.terminate "b" 3]
      = { srv := { repo := Repo.New, conns := [("a", some 2)] },
          accepted := [("b", 3), ("a", 2), ("a", 1)],
          terminated := [3, 1],
          closed := [3, 1, 1] } ∧
      SyncMap.entryCount (World.init.run [Event.accept "a" 1, Event.accept "a" 2,
        Event.accept "b" 3, Event.terminate "a" 1, Event.terminate "b" 3]).srv.conns "a" ≤ 1 :=
  ⟨by decide,
    (C9_registry_invariant [Event.accept "a" 1, Event.accept "a" 2, Event.accept "b" 3,
      Event.terminate "a" 1, Event.terminate "b" 3] "a").1⟩

/-! ## Claims on concurrent calls -/

theorem Shared_Inv_init (s : Server) : (Shared.init s).Inv where
  stored := by intro v hv; simp [Shared.init] at hv
  distinct := by simp [Shared.init]

theorem Shared_Inv_step (w : Shared) (hw : w.Inv) (a : Action) : (w.step a).Inv := by
  cases a with
  | call t =>
    simp only [Shared.step]
    split
    · exact ⟨hw.stored, hw.distinct⟩
    · exact hw
  | draw t outcome =>
    simp only [Shared.step]
    split
    · exact ⟨hw.stored, hw.distinct⟩
    · exact hw
  | check t =>
    simp only [Shared.step]
    split
    · rename_i i _
      by_cases hk : w.srv.repo.hasKey (bigIntString i)
      · simp only [CheckOrStore_loaded _ _ hk, Bool.not_true, Bool.false_eq_true, if_false]
        exact ⟨hw.stored, hw.distinct⟩
      · simp only [CheckOrStore_stored _ _ hk, Bool.not_false, if_true]
        constructor
        · intro v hv
          simp only [List.map_cons, List.mem_cons] at hv
          simp only [hasKey_cons]
          rcases hv with rfl | hv
          · exact Or.inl rfl
          · exact Or.inr (hw.stored v hv)
        · simp only [List.map_cons, List.nodup_cons]
          exact ⟨fun hin => hk (hw.stored i hin), hw.distinct⟩
    · exact hw

theorem Shared_Inv_run (as : List Action) : ∀ w : Shared, w.Inv → (w.run as).Inv := by
  induction as with
  | nil => intro w hw; exact hw
  | cons a as ih => intro w hw; exact ih _ (Shared_Inv_step w hw a)

/-- C8. For any number of sessions calling `getRndNumber` on one shared Repo and every
interleaving of their steps (entering the call, a draw, the atomic `CheckOrStore` with its
branch), the values returned across all calls are pairwise distinct; every returned value
has its key stored. -/
theorem C8_concurrent_uniqueness (schedule : List Action) :
    (((Shared.init (Server.New Repo.New)).run schedule).returned.map Prod.snd).Pairwise
        (fun a b => a ≠ b) ∧
      ∀ v ∈ ((Shared.init (Server.New Repo.New)).run schedule).returned.map Prod.snd,
        ((Shared.init (Server.New Repo.New)).run schedule).srv.repo.hasKey (bigIntString v) := by
  have hinv := Shared_Inv_run schedule _ (Shared_Inv_init (Server.New Repo.New))
  exact ⟨hinv.distinct, hinv.stored⟩

/-- Sessions 1 and 2 both draw 5 before either checks: session 2 gets 5, session 1 finds the
key stored, draws 6 and gets 6. -/
theorem C8_concurrent_uniqueness_witness :
    ((Shared.init (Server.New Repo.New)).run
        [Action.call 1, Action.call 2, Action.draw 1 (some 5), Action.draw 2 (some 5),
          Action.check 2, Action.check 1, Action.draw 1 (some 6), Action.check 1]).returned
      = [(1, some 6), (2, some 5)] ∧
      ([some 6, some 5] : List (Option Int)).Pairwise (fun a b => a ≠ b) :=
  ⟨by decide, by
    have h := (C8_concurrent_uniqueness
      [Action.call 1, Action.call 2, Action.draw 1 (some 5), Action.draw 2 (some 5),
        Action.check 2, Action.check 1, Action.draw 1 (some 6), Action.check 1]).1
    have e : ((Shared.init (Server.New Repo.New)).run
        [Action.call 1, Action.call 2, Action.draw 1 (some 5), Action.draw 2 (some 5),
          Action.check 2, Action.check 1, Action.draw 1 (some 6), Action.check 1]).returned
      = [(1, some 6), (2, some 5)] := by decide
    rw [e] at h
    exact h⟩

theorem run_soloSteps_idle (t : Nat) (ds : List (Option Int)) :
    ∀ w : Shared, w.pc t = Pc.idle → w.run (soloSteps t ds) = w := by
  induction ds with
  | nil => intro w _; rfl
  | cons d ds ih =>
    intro w hpc
    have h1 : w.step (Action.draw t d) = w := by simp [Shared.step, hpc]
    have h2 : w.step (Action.check t) = w := by simp [Shared.step, hpc]
    simp only [soloSteps, Shared.run, h1, h2]
    exact ih w hpc

/-- The steps of a session that runs alone do what `Server.getRndNumber` does on the same
draws: the same server afterwards and the same returned value, or a call still running. -/
theorem run_soloSteps (t : Nat) (ds : List (Option Int)) :
    ∀ w : Shared, w.pc t = Pc.loopHead →
      match w.srv.getRndNumber ds with
      | some (v, s1, _) =>
        (w.run (soloSteps t ds)).srv = s1 ∧
          (w.run (soloSteps t ds)).returned = (t, v) :: w.returned ∧
          (w.run (soloSteps t ds)).pc t = Pc.idle
      | none =>
        (w.run (soloSteps t ds)).srv = w.srv ∧
          (w.run (soloSteps t ds)).returned = w.returned ∧
          (w.run (soloSteps t ds)).pc t = Pc.loopHead := by
  induction ds with
  | nil => intro w hpc; exact ⟨rfl, rfl, hpc⟩
  | cons d ds ih =>
    intro w hpc
    by_cases hk : w.srv.repo.hasKey (bigIntString d)
    · rw [getRndNumber_skip _ _ _ hk]
      have hs : ((w.step (Action.draw t d)).step (Action.check t)).srv = w.srv ∧
          ((w.step (Action.draw t d)).step (Action.check t)).returned = w.returned ∧
          ((w.step (Action.draw t d)).step (Action.check t)).pc t = Pc.loopHead := by
        simp [Shared.step, hpc, CheckOrStore_loaded _ _ hk]
      have := ih _ hs.2.2
      simp only [soloSteps, Shared.run]
      rw [hs.1, hs.2.1] at this
      exact this
    · rw [getRndNumber_take _ _ _ hk]
      have hs : ((w.step (Action.draw t d)).step (Action.check t)).srv = w.srv.withKey d ∧
          ((w.step (Action.draw t d)).step (Action.check t)).returned = (t, d) :: w.returned ∧
          ((w.step (Action.draw t d)).step (Action.check t)).pc t = Pc.idle := by
        simp [Shared.step, hpc, CheckOrStore_stored _ _ hk, Server.withKey]
      simp only [soloSteps, Shared.run]
      rw [run_soloSteps_idle t ds _ hs.2.2]
      exact hs

end Realix
